import Mathlib

/-!
Shallow embedding of the modular-arithmetic core of
`Crypto-RSA-Algorithm/Crypto-RSA-Algorithm.cpp` and verification of its
specification.

Modelling conventions:

* The C++ templates are instantiated at a signed integer kind, modelled by `ℤ`
  with unbounded arithmetic (the spec explicitly treats native-width overflow
  as out of scope); C++ `/` and `%` on signed integers truncate toward zero and
  are modelled by `Int.tdiv` / `Int.tmod`.
* Loop state that the source keeps provably nonnegative (the remainders of the
  Euclidean chains and the exponent counter, which are absolute values) is
  modelled in `ℕ`, where C++ `/` and `%` agree with `Nat.div` / `Nat.mod`.
* Every `while` loop is written as a structurally recursive function with an
  explicit fuel argument.  The fuel passed by the wrappers is the initial value
  of the quantity that strictly decreases at each iteration, which provably
  suffices, so the fuelled function computes exactly the loop's result.
* Division by zero is a fault in C++.  `Crypto.modPowChecked` /
  `Crypto.modMulChecked` mirror `modPow` / `modMul` with every `%`-by-zero
  turned into `Option.none`; the total models are only used at nonzero moduli.
* `Crypto.invMulWrap` mirrors `invMul` with every assignment to one of its
  `int`-typed locals narrowed to 32-bit two's complement, modelling the fixed
  `int` width of the source's internal variables.
-/

namespace Crypto

/-- `abs` (source lines 14–20), instantiated at a signed integer kind:
`return ((x < 0) ? 0 - x : x);`. -/
def abs (x : ℤ) : ℤ := if x < 0 then 0 - x else x

/-- `isEven` (source lines 22–25): `return !(a & 1);`, instantiated at the
nonnegative exponent counter of `modPow`. -/
def isEven (a : ℕ) : Bool := a &&& 1 == 0

/-- The loop of `gcd` (source line 31): `while (tb) ta %= tb, swapCustom(ta, tb);`
with explicit fuel.  One iteration sends `(ta, tb)` to `(tb, ta % tb)`. -/
def gcdGo : ℕ → ℕ → ℕ → ℕ
  | 0, ta, _ => ta
  | fuel + 1, ta, tb => if tb = 0 then ta else gcdGo fuel tb (ta % tb)

/-- `gcd` (source lines 27–33): absolute values, conditional swap so that the
first component is the larger, then the Euclidean loop.  The fuel `tb` bounds
the iteration count since the second component strictly decreases. -/
def gcd (a b : ℤ) : ℤ :=
  let ta := (Crypto.abs a).toNat
  let tb := (Crypto.abs b).toNat
  if ta < tb then (gcdGo ta tb ta : ℕ) else (gcdGo tb ta tb : ℕ)

/-- `isCoprime` (source lines 35–38): `return (gcd(a, b) == 1);`. -/
def isCoprime (a b : ℤ) : Bool := gcd a b == 1

/-- The loop of `invMul` (source lines 43–49) with explicit fuel.  State is
`(a, b, y, y1)`; one iteration computes `q = a / b`, `t = a % b` and moves to
`(b, t, y1, y - y1 * q)`.  `a` and `b` are the nonnegative Euclidean
remainders, `y`, `y1` the signed Bézout bookkeeping. -/
def invMulGo : ℕ → ℕ → ℕ → ℤ → ℤ → ℕ × ℤ
  | 0, a, _, y, _ => (a, y)
  | fuel + 1, a, b, y, y1 =>
    if b = 0 then (a, y)
    else invMulGo fuel b (a % b) y1 (y - y1 * ((a / b : ℕ) : ℤ))

/-- `invMul` (source lines 40–54): extended Euclid on `(|valA|, |valB|)`,
returning `0` unless the final remainder is `1`, then normalising a negative
coefficient by adding `|valA|` and negating the result when `valB < 0`.
The fuel `|valB|` bounds the iteration count since `b` strictly decreases. -/
def invMul (valB valA : ℤ) : ℤ :=
  let r := invMulGo (Crypto.abs valB).toNat (Crypto.abs valA).toNat
    (Crypto.abs valB).toNat 0 1
  if r.1 ≠ 1 then 0
  else
    let y := if r.2 < 0 then r.2 + Crypto.abs valA else r.2
    if valB < 0 then -y else y

/-- `modMul` (source lines 56–59): `return (a * b) % module;` with C++
truncated remainder. -/
def modMul (a b module : ℤ) : ℤ := Int.tmod (a * b) module

/-- The reduced base of `modPow` (source line 64): `int_type c = a % module;`. -/
def reducedBase (a module : ℤ) : ℤ := Int.tmod a module

/-- The loop of `modPow` (source lines 67–68) with explicit fuel:
`for (f = 1; exp; exp >>= 1, c = modMul(c, c, module))
   if (!isEven(exp)) f = modMul(f, c, module);`. -/
def modPowGo : ℕ → ℕ → ℤ → ℤ → ℤ → ℤ
  | 0, _, _, f, _ => f
  | fuel + 1, exp, c, f, module =>
    if exp = 0 then f
    else
      modPowGo fuel (exp >>> 1) (modMul c c module)
        (if !isEven exp then modMul f c module else f) module

/-- `modPow` (source lines 61–70): returns `1` on zero exponent, reduces the
base, replaces it by its modular inverse on a negative exponent, then runs the
square-and-multiply loop on `exp = abs(n)`.  The fuel `exp` bounds the
iteration count since `exp` strictly decreases. -/
def modPow (a n module : ℤ) : ℤ :=
  if n = 0 then 1
  else
    let c := reducedBase a module
    let c := if n < 0 then invMul c module else c
    modPowGo (Crypto.abs n).toNat (Crypto.abs n).toNat c 1 module

/-- C++ `x % m` on integers, recording the division-by-zero fault of `m = 0`
as `none`. -/
def tmodChecked (x m : ℤ) : Option ℤ := if m = 0 then none else some (Int.tmod x m)

/-- `modMul` with the division-by-zero fault made explicit. -/
def modMulChecked (a b module : ℤ) : Option ℤ := tmodChecked (a * b) module

/-- The `modPow` loop with the division-by-zero fault made explicit. -/
def modPowGoChecked : ℕ → ℕ → ℤ → ℤ → ℤ → Option ℤ
  | 0, _, _, f, _ => some f
  | fuel + 1, exp, c, f, module =>
    if exp = 0 then some f
    else do
      let f' ← if !isEven exp then modMulChecked f c module else some f
      let c' ← modMulChecked c c module
      modPowGoChecked fuel (exp >>> 1) c' f' module

/-- `modPow` with the division-by-zero fault made explicit: the zero-exponent
early return happens before any modular operation, after it the base reduction
`a % module` is the first operation that can fault.  (`invMul` never divides
by zero: its loop guard is `b != 0`.) -/
def modPowChecked (a n module : ℤ) : Option ℤ :=
  if n = 0 then some 1
  else do
    let c ← tmodChecked a module
    let c' := if n < 0 then invMul c module else c
    modPowGoChecked (Crypto.abs n).toNat (Crypto.abs n).toNat c' 1 module

/-- Narrowing to 32-bit two's complement: the value of a C++ `int` assignment
under the customary wrap-around semantics. -/
def wrap32 (x : ℤ) : ℤ := (x + 2 ^ 31) % 2 ^ 32 - 2 ^ 31

/-- The loop of `invMul` with every assignment to the `int` locals narrowed to
32 bits.  `a`, `b` may now be negative (if the caller's arguments overflowed
the `int` range), so C++ `/` and `%` are `Int.tdiv` / `Int.tmod`; `a % b`
always lies in the `int` range again, and `b` is the narrowed previous
remainder, so only `q`, the product `y1 * q` and the difference `y - y1 * q`
need explicit wraps. -/
def invMulWrapGo : ℕ → ℤ → ℤ → ℤ → ℤ → ℤ × ℤ
  | 0, a, _, y, _ => (a, y)
  | fuel + 1, a, b, y, y1 =>
    if b = 0 then (a, y)
    else invMulWrapGo fuel b (Int.tmod a b) y1
      (wrap32 (y - wrap32 (y1 * wrap32 (Int.tdiv a b))))

/-- `invMul` with its `int`-typed internals modelled at 32-bit width: the
initialisations `int a = abs(valA), b = abs(valB)` narrow the caller-width
absolute values, and `y += abs(valA)` is computed at caller width and narrowed
back into the `int` variable `y`.  The fuel `|b|` bounds the iteration count
since `|b|` strictly decreases. -/
def invMulWrap (valB valA : ℤ) : ℤ :=
  let a := wrap32 (Crypto.abs valA)
  let b := wrap32 (Crypto.abs valB)
  let r := invMulWrapGo b.natAbs a b 0 1
  if r.1 ≠ 1 then 0
  else
    let y := if r.2 < 0 then wrap32 (r.2 + Crypto.abs valA) else r.2
    if valB < 0 then wrap32 (-y) else y

end Crypto

/-! ### Basic facts about `Crypto.abs` -/

theorem Crypto.abs_eq (x : ℤ) : Crypto.abs x = (x.natAbs : ℤ) := by
  simp only [Crypto.abs]
  split <;> omega

theorem Crypto.abs_toNat (x : ℤ) : (Crypto.abs x).toNat = x.natAbs := by
  rw [Crypto.abs_eq]; omega

/-! ### A toolkit for the C++ truncated remainder `Int.tmod` -/

theorem tmod_neg_left (x m : ℤ) : (-x).tmod m = -(x.tmod m) := by
  rw [Int.tmod_def, Int.tmod_def, Int.neg_tdiv]; ring

theorem tmod_abs_modulus (x m : ℤ) : x.tmod m = x.tmod (m.natAbs : ℤ) := by
  rcases le_or_lt 0 m with h | h
  · rw [Int.natAbs_of_nonneg h]
  · have hm : (m.natAbs : ℤ) = -m := by omega
    rw [hm, Int.tmod_neg]

theorem natAbs_tmod (x m : ℤ) : (x.tmod m).natAbs = x.natAbs % m.natAbs := by
  have key : ∀ y : ℤ, 0 ≤ y → (y.tmod m).natAbs = y.natAbs % m.natAbs := by
    intro y hy
    obtain ⟨n, rfl⟩ : ∃ n : ℕ, y = (n : ℤ) := ⟨y.toNat, by omega⟩
    rw [tmod_abs_modulus, Int.tmod_eq_emod (by positivity) (by positivity),
      ← Int.natCast_mod]
    simp only [Int.natAbs_ofNat]
  rcases le_or_lt 0 x with h | h
  · exact key x h
  · have hx : x = -((-x)) := by ring
    rw [hx, tmod_neg_left, Int.natAbs_neg, Int.natAbs_neg, key (-x) (by omega)]

theorem natAbs_tmod_lt (x m : ℤ) (hm : m ≠ 0) : (x.tmod m).natAbs < m.natAbs := by
  rw [natAbs_tmod]
  exact Nat.mod_lt _ (Int.natAbs_pos.mpr hm)

theorem tmod_eq_self (x m : ℤ) (h : x.natAbs < m.natAbs) : x.tmod m = x := by
  have key : ∀ y : ℤ, 0 ≤ y → y.natAbs < m.natAbs → y.tmod m = y := by
    intro y hy hlt
    rw [tmod_abs_modulus]
    exact Int.tmod_eq_of_lt hy (by omega)
  rcases le_or_lt 0 x with hx | hx
  · exact key x hx h
  · have h2 : (-x).tmod m = -x := key (-x) (by omega) (by rwa [Int.natAbs_neg])
    have h3 := tmod_neg_left x m
    omega

theorem tmod_tmod (x m : ℤ) : (x.tmod m).tmod m = x.tmod m := by
  rcases eq_or_ne m 0 with h | h
  · simp [h, Int.tmod_zero]
  · exact tmod_eq_self _ _ (natAbs_tmod_lt x m h)

theorem mul_tmod (a b m : ℤ) : (a * b).tmod m = (a.tmod m * b.tmod m).tmod m := by
  have aux : ∀ x y : ℤ, 0 ≤ x → 0 ≤ y →
      (x * y).tmod m = (x.tmod m * y.tmod m).tmod m := by
    intro x y hx hy
    rcases eq_or_ne m 0 with h | h
    · simp [h, Int.tmod_zero]
    · have hM : (0 : ℤ) ≤ (m.natAbs : ℤ) := by positivity
      have hMne : ((m.natAbs : ℤ)) ≠ 0 := by
        simpa using Int.natAbs_pos.mpr h
      have e1 : x.tmod m = x % (m.natAbs : ℤ) := by
        rw [tmod_abs_modulus, Int.tmod_eq_emod hx hM]
      have e2 : y.tmod m = y % (m.natAbs : ℤ) := by
        rw [tmod_abs_modulus, Int.tmod_eq_emod hy hM]
      have e3 : (x * y).tmod m = (x * y) % (m.natAbs : ℤ) := by
        rw [tmod_abs_modulus, Int.tmod_eq_emod (mul_nonneg hx hy) hM]
      rw [e1, e2, e3, tmod_abs_modulus (x % (m.natAbs : ℤ) * (y % (m.natAbs : ℤ))) m,
        Int.tmod_eq_emod (mul_nonneg (Int.emod_nonneg x hMne) (Int.emod_nonneg y hMne)) hM]
      exact Int.mul_emod x y _
  have negfix : ∀ z : ℤ, z.tmod m = -((-z).tmod m) := by
    intro z; rw [tmod_neg_left]; ring
  rcases le_or_lt 0 a with ha | ha <;> rcases le_or_lt 0 b with hb | hb
  · exact aux a b ha hb
  · have h1 : a * b = -(a * (-b)) := by ring
    rw [h1, tmod_neg_left, aux a (-b) ha (by omega), negfix b, ← tmod_neg_left]
    ring_nf
  · have h1 : a * b = -((-a) * b) := by ring
    rw [h1, tmod_neg_left, aux (-a) b (by omega) hb, negfix a, ← tmod_neg_left]
    ring_nf
  · have h1 : a * b = (-a) * (-b) := by ring
    rw [h1, aux (-a) (-b) (by omega) (by omega), negfix a, negfix b]
    ring_nf

theorem tmod_absorb_left (a b m : ℤ) : (a.tmod m * b).tmod m = (a * b).tmod m := by
  rw [mul_tmod (a.tmod m) b, tmod_tmod, ← mul_tmod a b]

theorem tmod_absorb_right (a b m : ℤ) : (a * b.tmod m).tmod m = (a * b).tmod m := by
  rw [mul_tmod a (b.tmod m), tmod_tmod, ← mul_tmod a b]

theorem pow_tmod (a : ℤ) (k : ℕ) (m : ℤ) : ((a.tmod m) ^ k).tmod m = (a ^ k).tmod m := by
  induction k with
  | zero => simp
  | succ k ih =>
    calc ((a.tmod m) ^ (k + 1)).tmod m
        = ((a.tmod m) ^ k * (a.tmod m)).tmod m := by rw [pow_succ]
      _ = (((a.tmod m) ^ k).tmod m * (a.tmod m).tmod m).tmod m :=
          mul_tmod ((a.tmod m) ^ k) (a.tmod m) m
      _ = ((a ^ k).tmod m * a.tmod m).tmod m := by rw [ih, tmod_tmod]
      _ = (a ^ k * a).tmod m := (mul_tmod (a ^ k) a m).symm
      _ = (a ^ (k + 1)).tmod m := by rw [pow_succ]

theorem tmod_modEq (x m : ℤ) : x.tmod m ≡ x [ZMOD m] := by
  rw [Int.modEq_iff_dvd]
  have h := Int.tmod_def x m
  have : x - x.tmod m = m * x.tdiv m := by omega
  rw [show x - x.tmod m = m * x.tdiv m from this]
  exact dvd_mul_right m _

theorem modEq_natAbs {a b : ℤ} (m : ℤ) : a ≡ b [ZMOD m] ↔ a ≡ b [ZMOD (m.natAbs : ℤ)] := by
  rw [Int.modEq_iff_dvd, Int.modEq_iff_dvd, Int.natAbs_dvd]

theorem tmod_nonpos (x m : ℤ) (h : x ≤ 0) : x.tmod m ≤ 0 := by
  have h1 := Int.tmod_nonneg m (show (0:ℤ) ≤ -x by omega)
  have h2 := tmod_neg_left x m
  omega

theorem modEq_eq_of_abs_sub_lt {M x y : ℤ} (h : x ≡ y [ZMOD M]) (hb : |x - y| < M) :
    x = y := by
  have h1 : M ∣ y - x := h.dvd
  have hd : M ∣ x - y := by
    rw [show x - y = -(y - x) by ring]
    exact dvd_neg.mpr h1
  have := Int.eq_zero_of_abs_lt_dvd hd hb
  omega

/-! ### The Euclidean loop of `gcd` -/

theorem gcdGo_eq : ∀ (fuel ta tb : ℕ), tb ≤ fuel → Crypto.gcdGo fuel ta tb = Nat.gcd tb ta := by
  intro fuel
  induction fuel with
  | zero => intro ta tb h; interval_cases tb; simp [Crypto.gcdGo]
  | succ fuel ih =>
    intro ta tb h
    rcases eq_or_ne tb 0 with h0 | h0
    · simp [Crypto.gcdGo, h0]
    · rw [Crypto.gcdGo, if_neg h0, ih tb (ta % tb) (by
        have := Nat.mod_lt ta (Nat.pos_of_ne_zero h0); omega)]
      exact (Nat.gcd_rec tb ta).symm

theorem gcd_eq (a b : ℤ) : Crypto.gcd a b = (Nat.gcd a.natAbs b.natAbs : ℤ) := by
  unfold Crypto.gcd
  rw [Crypto.abs_toNat, Crypto.abs_toNat]
  rcases lt_or_le a.natAbs b.natAbs with h | h
  · rw [if_pos h, gcdGo_eq _ _ _ le_rfl]
  · rw [if_neg (by omega), gcdGo_eq _ _ _ le_rfl, Nat.gcd_comm]

/-! ### The extended Euclidean loop of `invMul`

The loop state `(a, b, y, y1)` of `Crypto.invMulGo` satisfies, relative to the
initial values `(a₀, b₀)`:

* `y * b₀ ≡ a` and `y1 * b₀ ≡ b` modulo `a₀` (the Bézout congruences);
* the exact identity `a * |y1| + b * |y| = a₀`;
* `y` and `y1` have opposite (weak) signs;
* `|y| ≤ a₀`.
-/

theorem invMulGo_gcd : ∀ (fuel a b : ℕ) (y y1 : ℤ), b ≤ fuel →
    (Crypto.invMulGo fuel a b y y1).1 = Nat.gcd b a := by
  intro fuel
  induction fuel with
  | zero =>
    intro a b y y1 h
    interval_cases b
    simp [Crypto.invMulGo]
  | succ fuel ih =>
    intro a b y y1 h
    rcases eq_or_ne b 0 with h0 | h0
    · simp [Crypto.invMulGo, h0]
    · rw [Crypto.invMulGo, if_neg h0, ih b (a % b) _ _ (by
        have := Nat.mod_lt a (Nat.pos_of_ne_zero h0); omega)]
      exact (Nat.gcd_rec b a).symm

/-- One step of the extended Euclidean recurrence preserves the Bézout
bookkeeping invariants: the absolute value of the new coefficient
`t = y - y1 * (a / b)` is `|y| + (a / b) * |y1|`, the exact identity moves to
the next state, and the signs keep alternating. -/
theorem bezout_step (a₀ a b : ℕ) (y y1 : ℤ) (_hb : 1 ≤ b)
    (hI3 : (a : ℤ) * (y1.natAbs : ℤ) + (b : ℤ) * (y.natAbs : ℤ) = (a₀ : ℤ))
    (hI4 : 0 ≤ y ∧ y1 ≤ 0 ∨ y ≤ 0 ∧ 0 ≤ y1) :
    ((y - y1 * ((a / b : ℕ) : ℤ)).natAbs : ℤ)
      = (y.natAbs : ℤ) + ((a / b : ℕ) : ℤ) * (y1.natAbs : ℤ) ∧
    (b : ℤ) * ((y - y1 * ((a / b : ℕ) : ℤ)).natAbs : ℤ)
      + ((a % b : ℕ) : ℤ) * (y1.natAbs : ℤ) = (a₀ : ℤ) ∧
    (0 ≤ y1 ∧ (y - y1 * ((a / b : ℕ) : ℤ)) ≤ 0 ∨
      y1 ≤ 0 ∧ 0 ≤ (y - y1 * ((a / b : ℕ) : ℤ))) := by
  have hq0 : (0 : ℤ) ≤ ((a / b : ℕ) : ℤ) := by positivity
  have hdm : (b : ℤ) * ((a / b : ℕ) : ℤ) + ((a % b : ℕ) : ℤ) = (a : ℤ) := by
    exact_mod_cast Nat.div_add_mod a b
  rcases hI4 with ⟨hy, hy1⟩ | ⟨hy, hy1⟩
  · have e1 : (y.natAbs : ℤ) = y := Int.natAbs_of_nonneg hy
    have e2 : (y1.natAbs : ℤ) = -y1 := by omega
    have ht : 0 ≤ y - y1 * ((a / b : ℕ) : ℤ) := by
      have hp : 0 ≤ ((a / b : ℕ) : ℤ) * (-y1) := mul_nonneg hq0 (by omega)
      have heq : y - y1 * ((a / b : ℕ) : ℤ) = y + ((a / b : ℕ) : ℤ) * (-y1) := by ring
      rw [heq]; exact add_nonneg hy hp
    have e3 : ((y - y1 * ((a / b : ℕ) : ℤ)).natAbs : ℤ) = y - y1 * ((a / b : ℕ) : ℤ) :=
      Int.natAbs_of_nonneg ht
    refine ⟨?_, ?_, Or.inr ⟨hy1, ht⟩⟩
    · rw [e1, e2, e3]; ring
    · rw [e3, e2]
      rw [e1, e2] at hI3
      linear_combination hI3 + (-y1) * hdm
  · have e1 : (y.natAbs : ℤ) = -y := by omega
    have e2 : (y1.natAbs : ℤ) = y1 := Int.natAbs_of_nonneg hy1
    have ht : y - y1 * ((a / b : ℕ) : ℤ) ≤ 0 := by
      have hp : 0 ≤ ((a / b : ℕ) : ℤ) * y1 := mul_nonneg hq0 hy1
      have heq : y - y1 * ((a / b : ℕ) : ℤ) = y - ((a / b : ℕ) : ℤ) * y1 := by ring
      rw [heq]; omega
    have e3 : ((y - y1 * ((a / b : ℕ) : ℤ)).natAbs : ℤ) = -(y - y1 * ((a / b : ℕ) : ℤ)) := by
      omega
    refine ⟨?_, ?_, Or.inl ⟨hy1, ht⟩⟩
    · rw [e1, e2, e3]; ring
    · rw [e3, e2]
      rw [e1, e2] at hI3
      linear_combination hI3 + y1 * hdm

/-- Running the extended Euclidean loop from a state satisfying the invariants
yields a pair `(g, Y)` with `Y * b₀ ≡ g [ZMOD a₀]` and `|Y| ≤ a₀`. -/
theorem invMulGo_spec (a₀ b₀ : ℕ) : ∀ (fuel a b : ℕ) (y y1 : ℤ),
    b ≤ fuel → 1 ≤ a →
    y * (b₀ : ℤ) ≡ (a : ℤ) [ZMOD (a₀ : ℤ)] →
    y1 * (b₀ : ℤ) ≡ (b : ℤ) [ZMOD (a₀ : ℤ)] →
    (a : ℤ) * (y1.natAbs : ℤ) + (b : ℤ) * (y.natAbs : ℤ) = (a₀ : ℤ) →
    (0 ≤ y ∧ y1 ≤ 0 ∨ y ≤ 0 ∧ 0 ≤ y1) →
    (y.natAbs : ℤ) ≤ (a₀ : ℤ) →
    (Crypto.invMulGo fuel a b y y1).2 * (b₀ : ℤ)
        ≡ ((Crypto.invMulGo fuel a b y y1).1 : ℤ) [ZMOD (a₀ : ℤ)] ∧
    (((Crypto.invMulGo fuel a b y y1).2.natAbs : ℤ)) ≤ (a₀ : ℤ) := by
  intro fuel
  induction fuel with
  | zero =>
    intro a b y y1 hfuel ha hI1 hI2 hI3 hI4 hI5
    exact ⟨hI1, hI5⟩
  | succ fuel ih =>
    intro a b y y1 hfuel ha hI1 hI2 hI3 hI4 hI5
    rcases eq_or_ne b 0 with h0 | h0
    · subst h0
      rw [show Crypto.invMulGo (fuel + 1) a 0 y y1 = (a, y) from by
        simp [Crypto.invMulGo]]
      exact ⟨hI1, hI5⟩
    · have hb1 : 1 ≤ b := Nat.pos_of_ne_zero h0
      obtain ⟨habs, hI3', hI4'⟩ := bezout_step a₀ a b y y1 hb1 hI3 hI4
      have hrb : a % b < b := Nat.mod_lt a hb1
      have step : Crypto.invMulGo (fuel + 1) a b y y1
          = Crypto.invMulGo fuel b (a % b) y1 (y - y1 * ((a / b : ℕ) : ℤ)) := by
        rw [Crypto.invMulGo, if_neg h0]
      have hdm : (b : ℤ) * ((a / b : ℕ) : ℤ) + ((a % b : ℕ) : ℤ) = (a : ℤ) := by
        exact_mod_cast Nat.div_add_mod a b
      have hcong : (y - y1 * ((a / b : ℕ) : ℤ)) * (b₀ : ℤ)
          ≡ ((a % b : ℕ) : ℤ) [ZMOD (a₀ : ℤ)] := by
        have h1 : (y - y1 * ((a / b : ℕ) : ℤ)) * (b₀ : ℤ)
            = y * b₀ - ((a / b : ℕ) : ℤ) * (y1 * b₀) := by ring
        have h2 := hI1.sub (hI2.mul_left ((a / b : ℕ) : ℤ))
        have h3 : (a : ℤ) - ((a / b : ℕ) : ℤ) * (b : ℤ) = ((a % b : ℕ) : ℤ) := by
          rw [← hdm]; ring
        rw [h3] at h2
        rw [h1]; exact h2
      have hI5' : (y1.natAbs : ℤ) ≤ (a₀ : ℤ) := by
        have t1 : (1 : ℤ) * (y1.natAbs : ℤ) ≤ (a : ℤ) * (y1.natAbs : ℤ) := by
          apply mul_le_mul_of_nonneg_right _ (by positivity)
          exact_mod_cast ha
        have t2 : (0 : ℤ) ≤ (b : ℤ) * (y.natAbs : ℤ) := by positivity
        linarith
      rw [step]
      exact ih b (a % b) y1 (y - y1 * ((a / b : ℕ) : ℤ)) (by omega) hb1 hI2 hcong hI3' hI4' hI5'

/-- Full characterisation of `invMul` at a modulus of absolute value `> 1` and
coprime arguments: the result times `valB` is `≡ 1` modulo `|valA|`, and it
lies in `(0, |valA|)` for `valB ≥ 0`, in `(-|valA|, 0)` for `valB < 0`. -/
theorem invMul_spec (valB valA : ℤ) (hA : 1 < valA.natAbs)
    (hg : Nat.gcd valA.natAbs valB.natAbs = 1) :
    Crypto.invMul valB valA * valB ≡ 1 [ZMOD (valA.natAbs : ℤ)] ∧
    (0 ≤ valB → 0 < Crypto.invMul valB valA ∧
      Crypto.invMul valB valA < (valA.natAbs : ℤ)) ∧
    (valB < 0 → -(valA.natAbs : ℤ) < Crypto.invMul valB valA ∧
      Crypto.invMul valB valA < 0) := by
  obtain ⟨g, Y, hE⟩ :
      ∃ g Y, Crypto.invMulGo valB.natAbs valA.natAbs valB.natAbs 0 1 = (g, Y) :=
    ⟨_, _, rfl⟩
  have hg1 : g = 1 := by
    have h := invMulGo_gcd valB.natAbs valA.natAbs valB.natAbs 0 1 le_rfl
    rw [hE] at h
    have h2 : g = Nat.gcd valB.natAbs valA.natAbs := h
    rw [h2, Nat.gcd_comm]
    exact hg
  have hspec := invMulGo_spec valA.natAbs valB.natAbs valB.natAbs
      valA.natAbs valB.natAbs 0 1 le_rfl (by omega)
      (by rw [zero_mul]; exact ((dvd_refl ((valA.natAbs : ℤ))).modEq_zero_int).symm)
      (by rw [one_mul])
      (by simp)
      (Or.inr ⟨le_rfl, zero_le_one⟩)
      (by simp)
  rw [hE] at hspec
  obtain ⟨hcong, hbound⟩ := hspec
  rw [hg1] at hcong
  set z : ℤ := if Y < 0 then Y + (valA.natAbs : ℤ) else Y with hz
  -- the sentinel test fails, so the result is the normalised coefficient `z`
  have hform : Crypto.invMul valB valA = if valB < 0 then -z else z := by
    rw [hz]
    simp only [Crypto.invMul]
    rw [Crypto.abs_toNat, Crypto.abs_toNat, Crypto.abs_eq, hE, hg1]
    simp
  -- `z * |valB| ≡ 1 (mod |valA|)`
  have hAd : ¬ ((valA.natAbs : ℤ) ∣ 1) := by
    intro h
    have := Int.le_of_dvd one_pos h
    omega
  have hy2cong : z * (valB.natAbs : ℤ) ≡ 1 [ZMOD (valA.natAbs : ℤ)] := by
    rw [hz]
    rcases lt_or_le Y 0 with h | h
    · rw [if_pos h]
      have h1 : (Y + (valA.natAbs : ℤ)) * (valB.natAbs : ℤ)
          = Y * (valB.natAbs : ℤ) + (valA.natAbs : ℤ) * (valB.natAbs : ℤ) := by ring
      rw [h1]
      exact Int.ModEq.trans Int.modEq_add_fac_self (by simpa using hcong)
    · rw [if_neg (not_lt.mpr h)]
      simpa using hcong
  have hy2ne : ¬ ((valA.natAbs : ℤ) ∣ z) := by
    intro hdvd
    have h0 : z * (valB.natAbs : ℤ) ≡ 0 [ZMOD (valA.natAbs : ℤ)] :=
      (hdvd.mul_right (valB.natAbs : ℤ)).modEq_zero_int
    have h1 : (0 : ℤ) ≡ 1 [ZMOD (valA.natAbs : ℤ)] := h0.symm.trans hy2cong
    have h2 := h1.dvd
    simp only [sub_zero] at h2
    exact hAd h2
  -- `0 < z < |valA|`
  have hy2range : 0 < z ∧ z < (valA.natAbs : ℤ) := by
    rcases lt_or_le Y 0 with h | h
    · have hz' : z = Y + (valA.natAbs : ℤ) := by rw [hz, if_pos h]
      have hne : z ≠ 0 := fun he => hy2ne (by rw [he]; exact dvd_zero _)
      omega
    · have hz' : z = Y := by rw [hz, if_neg (not_lt.mpr h)]
      have hne : z ≠ 0 := fun he => hy2ne (by rw [he]; exact dvd_zero _)
      have hneA : z ≠ (valA.natAbs : ℤ) := fun he => hy2ne (by rw [he])
      omega
  -- assemble, by the sign of `valB`
  rw [hform]
  rcases lt_or_le valB 0 with hB | hB
  · rw [if_pos hB]
    have hBval : (valB.natAbs : ℤ) = -valB := by omega
    refine ⟨?_, fun h => absurd hB (not_lt.mpr h), fun _ => ⟨by omega, by omega⟩⟩
    have h1 : -z * valB = z * (valB.natAbs : ℤ) := by rw [hBval]; ring
    rw [h1]
    exact hy2cong
  · rw [if_neg (not_lt.mpr hB)]
    have hBval : (valB.natAbs : ℤ) = valB := by omega
    refine ⟨?_, fun _ => ⟨hy2range.1, hy2range.2⟩, fun h => absurd hB (not_le.mpr h)⟩
    rw [← hBval]
    exact hy2cong

/-! ### The square-and-multiply loop of `modPow` -/

theorem invMul_one (m : ℤ) : Crypto.invMul 1 m = 1 := by
  have h : Crypto.invMulGo 1 m.natAbs 1 0 1 = (1, 1) := rfl
  simp only [Crypto.invMul, Crypto.abs_toNat, Int.natAbs_one, h]
  norm_num

theorem modPowGo_zero_exp (fuel : ℕ) (c f m : ℤ) :
    Crypto.modPowGo fuel 0 c f m = f := by
  cases fuel <;> simp [Crypto.modPowGo]

theorem isEven_false_of_odd {exp : ℕ} (h : exp % 2 = 1) : Crypto.isEven exp = false := by
  simp [Crypto.isEven, Nat.and_one_is_mod, h]

theorem isEven_true_of_even {exp : ℕ} (h : exp % 2 = 0) : Crypto.isEven exp = true := by
  simp [Crypto.isEven, Nat.and_one_is_mod, h]

/-- The square-and-multiply loop computes `(f * c ^ exp) tmod m`: each
intermediate reduction is absorbed by the truncated remainder's
multiplicativity. -/
theorem modPowGo_eq : ∀ (fuel exp : ℕ) (c f m : ℤ), m ≠ 0 → exp ≤ fuel → 1 ≤ exp →
    Crypto.modPowGo fuel exp c f m = (f * c ^ exp).tmod m := by
  intro fuel
  induction fuel with
  | zero => intro exp c f m _ h1 h2; omega
  | succ fuel ih =>
    intro exp c f m hm hfuel hexp
    have hexp0 : exp ≠ 0 := by omega
    rw [Crypto.modPowGo, if_neg hexp0]
    have hshift : exp >>> 1 = exp / 2 := by
      rw [Nat.shiftRight_eq_div_pow, pow_one]
    rcases Nat.mod_two_eq_zero_or_one exp with hpar | hpar
    · -- even exponent: `f` untouched, and `exp = 2 * (exp / 2)` with `exp / 2 ≥ 1`
      rw [isEven_true_of_even hpar]
      simp only [Bool.not_true, Bool.false_eq_true, if_false, hshift]
      have hk1 : 1 ≤ exp / 2 := by omega
      rw [ih (exp / 2) (Crypto.modMul c c m) f m hm (by omega) hk1]
      simp only [Crypto.modMul]
      rw [mul_tmod f ((c * c).tmod m ^ (exp / 2)) m, pow_tmod,
        ← mul_tmod f ((c * c) ^ (exp / 2)) m]
      have hc : f * (c * c) ^ (exp / 2) = f * c ^ (2 * (exp / 2)) := by
        rw [show c * c = c ^ 2 from (sq c).symm, ← pow_mul]
      rw [hc, show 2 * (exp / 2) = exp by omega]
    · -- odd exponent: `f` is multiplied by `c` once
      rw [isEven_false_of_odd hpar]
      simp only [Bool.not_false, if_true, hshift]
      rcases eq_or_lt_of_le hexp with h1 | h1
      · -- `exp = 1`: the recursive call has exponent `0`
        have h1' : exp = 1 := h1.symm
        subst h1'
        rw [show (1 : ℕ) / 2 = 0 from rfl, modPowGo_zero_exp]
        simp only [Crypto.modMul, pow_one]
      · -- `exp ≥ 2` (hence `exp ≥ 3` as it is odd)
        have hk1 : 1 ≤ exp / 2 := by omega
        rw [ih (exp / 2) (Crypto.modMul c c m) (Crypto.modMul f c m) m hm (by omega) hk1]
        simp only [Crypto.modMul]
        rw [tmod_absorb_left (f * c) ((c * c).tmod m ^ (exp / 2)) m,
          mul_tmod (f * c) ((c * c).tmod m ^ (exp / 2)) m, pow_tmod,
          ← mul_tmod (f * c) ((c * c) ^ (exp / 2)) m]
        have hc : f * c * (c * c) ^ (exp / 2) = f * c ^ (2 * (exp / 2) + 1) := by
          rw [show c * c = c ^ 2 from (sq c).symm, ← pow_mul, pow_succ]
          ring
        rw [hc, show 2 * (exp / 2) + 1 = exp by omega]

theorem modPow_zero (a m : ℤ) : Crypto.modPow a 0 m = 1 := by
  simp [Crypto.modPow]

/-- For a positive exponent and nonzero modulus, `modPow` computes
`(a ^ n) tmod m`. -/
theorem modPow_eq_pos (a n m : ℤ) (hm : m ≠ 0) (hn : 0 < n) :
    Crypto.modPow a n m = (a ^ n.natAbs).tmod m := by
  have hn0 : n ≠ 0 := by omega
  have hnlt : ¬ n < 0 := by omega
  have hex : 1 ≤ n.natAbs := by
    have := Int.natAbs_pos.mpr hn0; omega
  simp only [Crypto.modPow, if_neg hn0, if_neg hnlt, Crypto.abs_toNat,
    Crypto.reducedBase]
  rw [modPowGo_eq n.natAbs n.natAbs (a.tmod m) 1 m hm le_rfl hex, one_mul, pow_tmod]

/-- For a negative exponent and nonzero modulus, `modPow` computes
`((invMul (a tmod m) m) ^ |n|) tmod m`: the reduced base is replaced by its
modular inverse and raised to `|n|`. -/
theorem modPow_eq_neg (a n m : ℤ) (hm : m ≠ 0) (hn : n < 0) :
    Crypto.modPow a n m = ((Crypto.invMul (a.tmod m) m) ^ n.natAbs).tmod m := by
  have hn0 : n ≠ 0 := by omega
  have hex : 1 ≤ n.natAbs := by
    have := Int.natAbs_pos.mpr hn0; omega
  simp only [Crypto.modPow, if_neg hn0, if_pos hn, Crypto.abs_toNat,
    Crypto.reducedBase]
  rw [modPowGo_eq n.natAbs n.natAbs _ 1 m hm le_rfl hex, one_mul]

/-! ### Number theory for the RSA round trip -/

/-- For a prime `p` and an exponent `1 + e` with `(p - 1) ∣ e`,
`M ^ (1 + e) ≡ M (mod p)`: Fermat's little theorem when `p ∤ M`, and both
sides `≡ 0` otherwise. -/
theorem pow_modEq_prime (p : ℕ) (hp : Nat.Prime p) (e : ℕ) (hdvd : (p - 1) ∣ e) (M : ℤ) :
    M ^ (1 + e) ≡ M [ZMOD (p : ℤ)] := by
  rcases em ((p : ℤ) ∣ M) with h | h
  · have h1 : (p : ℤ) ∣ M ^ (1 + e) := dvd_pow h (by omega)
    exact h1.modEq_zero_int.trans h.modEq_zero_int.symm
  · haveI : Fact (Nat.Prime p) := ⟨hp⟩
    obtain ⟨j, hj⟩ := hdvd
    have hMz : ((M : ZMod p)) ≠ 0 := by
      rw [Ne, ZMod.intCast_zmod_eq_zero_iff_dvd]
      exact h
    have hferm : (M : ZMod p) ^ (p - 1) = 1 := ZMod.pow_card_sub_one_eq_one hMz
    have hc : ((M ^ (1 + e) : ℤ) : ZMod p) = ((M : ℤ) : ZMod p) := by
      push_cast
      rw [hj, pow_add, pow_mul, hferm, one_pow, pow_one, mul_one]
    exact (ZMod.intCast_eq_intCast_iff _ _ _).mp hc

/-- RSA core: for distinct primes `P ≠ Q` and any `k`,
`M ^ (1 + (P-1)(Q-1)k) ≡ M (mod P*Q)`, by the Chinese remainder theorem. -/
theorem rsa_core (P Q : ℕ) (hP : Nat.Prime P) (hQ : Nat.Prime Q) (hne : P ≠ Q)
    (k : ℕ) (M : ℤ) :
    M ^ (1 + (P - 1) * (Q - 1) * k) ≡ M [ZMOD ((P : ℤ) * (Q : ℤ))] := by
  have hcop : Nat.Coprime P Q := (Nat.coprime_primes hP hQ).mpr hne
  have h1 : M ^ (1 + (P - 1) * (Q - 1) * k) ≡ M [ZMOD (P : ℤ)] :=
    pow_modEq_prime P hP _ ⟨(Q - 1) * k, by ring⟩ M
  have h2 : M ^ (1 + (P - 1) * (Q - 1) * k) ≡ M [ZMOD (Q : ℤ)] :=
    pow_modEq_prime Q hQ _ ⟨(P - 1) * k, by ring⟩ M
  exact (Int.modEq_and_modEq_iff_modEq_mul (by simpa using hcop)).mp ⟨h1, h2⟩

/-! ### Claim theorems -/

/-- C9: for all integers `a`, `b`, `gcd(a, b) = gcd(b, a)`, `gcd(a, b) ≥ 0`,
and `gcd(0, 0) = 0`. -/
theorem gcd_symm_nonneg (a b : ℤ) :
    Crypto.gcd a b = Crypto.gcd b a ∧ 0 ≤ Crypto.gcd a b ∧ Crypto.gcd 0 0 = 0 := by
  refine ⟨?_, ?_, by decide⟩
  · rw [gcd_eq, gcd_eq, Nat.gcd_comm]
  · rw [gcd_eq]; positivity

/-- C2: the concrete scenario `P = 61`, `Q = 53`, so `N = 3233`, `Phi = 3120`:
`invMul 17 3120 = 2753`, `modPow 65 17 3233 = 2790`, and
`modPow 2790 2753 3233 = 65`. -/
theorem rsa_concrete_scenario :
    (61 : ℕ) * 53 = 3233 ∧ ((61 : ℕ) - 1) * (53 - 1) = 3120 ∧
    Crypto.invMul 17 3120 = 2753 ∧ Crypto.modPow 65 17 3233 = 2790 ∧
    Crypto.modPow 2790 2753 3233 = 65 :=
  ⟨by decide, by decide, by decide, by decide, by decide⟩

/-- C1 counterexample: at `a = 1`, `b = 1` we have `gcd(|a|, |b|) = 1`, yet
`(b * invMul(b, a)) tmod a = 0 ≠ 1` (everything is `0` modulo `1`), so the
claim fails as stated for `|a| ≤ 1`. -/
theorem inverse_correct_cex :
    Crypto.gcd 1 1 = 1 ∧ Crypto.invMul 1 1 = 1 ∧
    ¬ Int.tmod (1 * Crypto.invMul 1 1) 1 = 1 :=
  ⟨by decide, by decide, by decide⟩

/-- C1 (amended with `1 < |a|`): when `gcd(a, b) = 1` and `1 < |a|`, the value
`x = invMul(b, a)` satisfies `(b * x) tmod a = 1`, with `0 ≤ x < |a|` for
`b ≥ 0` and the sign-flipped range `-|a| < x ≤ 0` for `b < 0`. -/
theorem inverse_correct (a b : ℤ) (hA : 1 < |a|) (hg : Crypto.gcd a b = 1) :
    Int.tmod (b * Crypto.invMul b a) a = 1 ∧
    (0 ≤ b → 0 ≤ Crypto.invMul b a ∧ Crypto.invMul b a < |a|) ∧
    (b < 0 → -|a| < Crypto.invMul b a ∧ Crypto.invMul b a ≤ 0) := by
  have hA' : 1 < a.natAbs := by
    have := Int.abs_eq_natAbs a; omega
  have hg' : Nat.gcd a.natAbs b.natAbs = 1 := by
    rw [gcd_eq] at hg; exact_mod_cast hg
  obtain ⟨hcong, hpos, hneg⟩ := invMul_spec b a hA' hg'
  have habs : |a| = (a.natAbs : ℤ) := Int.abs_eq_natAbs a
  refine ⟨?_, fun hb => ⟨(hpos hb).1.le, habs ▸ (hpos hb).2⟩,
    fun hb => ⟨by have := (hneg hb).1; omega, (hneg hb).2.le⟩⟩
  have hnn : 0 ≤ b * Crypto.invMul b a := by
    rcases lt_or_le b 0 with hb | hb
    · have h1 := (hneg hb).2
      have h2 : 0 ≤ (-b) * (-(Crypto.invMul b a)) :=
        mul_nonneg (by omega) (by omega)
      have h3 : (-b) * (-(Crypto.invMul b a)) = b * Crypto.invMul b a := by ring
      rw [h3] at h2
      exact h2
    · exact mul_nonneg hb (hpos hb).1.le
  have hcong' : b * Crypto.invMul b a ≡ 1 [ZMOD (a.natAbs : ℤ)] := by
    rwa [mul_comm] at hcong
  rw [tmod_abs_modulus, Int.tmod_eq_emod hnn (by positivity)]
  have h1 : (1 : ℤ) % (a.natAbs : ℤ) = 1 := Int.emod_eq_of_lt (by omega) (by omega)
  calc (b * Crypto.invMul b a) % (a.natAbs : ℤ) = 1 % (a.natAbs : ℤ) := hcong'.eq
    _ = 1 := h1

/-- Witness for C1's amended theorem at `a = 7`, `b = 3`. -/
theorem inverse_correct_witness :
    Int.tmod (3 * Crypto.invMul 3 7) 7 = 1 ∧
    0 ≤ Crypto.invMul 3 7 ∧ Crypto.invMul 3 7 < |(7 : ℤ)| := by
  obtain ⟨h1, h2, _⟩ := inverse_correct 7 3 (by decide) (by decide)
  exact ⟨h1, (h2 (by decide)).1, (h2 (by decide)).2⟩

/-- C4 counterexample: `invMul(2, -5) = 3 = invMul(2, 5)`: the result for the
negative modulus `-5` is *not* the negation of the result for `5`, refuting
"negate the final result whenever the modulus argument is negative". -/
theorem sign_flip_cex :
    Crypto.invMul 2 (-5) = 3 ∧ Crypto.invMul 2 5 = 3 ∧
    ¬ Crypto.invMul 2 (-5) = -(Crypto.invMul 2 5) :=
  ⟨by decide, by decide, by decide⟩

/-- C4 (amended): a negative Bézout coefficient is brought into `[0, |a|)` by
adding `|a|` (observable as the range of the result for `b ≥ 0`), and the
final result is negated exactly when the *value* argument `b` is negative —
the sign of the modulus argument `a` has no effect (only `|a|` is used). -/
theorem sign_flip_behavior (valB valA : ℤ) :
    Crypto.invMul valB (-valA) = Crypto.invMul valB valA ∧
    (valB < 0 → Crypto.invMul valB valA = -(Crypto.invMul (-valB) valA)) ∧
    (1 < |valA| → Crypto.gcd valA valB = 1 → 0 ≤ valB →
      0 ≤ Crypto.invMul valB valA ∧ Crypto.invMul valB valA < |valA|) := by
  refine ⟨?_, fun hB => ?_, fun h1 h2 h3 => ?_⟩
  · simp only [Crypto.invMul, Crypto.abs_toNat, Crypto.abs_eq, Int.natAbs_neg]
  · have hB' : ¬ (-valB < 0) := by omega
    simp only [Crypto.invMul, Crypto.abs_toNat, Crypto.abs_eq, Int.natAbs_neg,
      if_pos hB, if_neg hB']
    split
    · simp
    · simp
  · have hA' : 1 < valA.natAbs := by
      have := Int.abs_eq_natAbs valA; omega
    have hg' : Nat.gcd valA.natAbs valB.natAbs = 1 := by
      rw [gcd_eq] at h2; exact_mod_cast h2
    obtain ⟨_, hpos, _⟩ := invMul_spec valB valA hA' hg'
    have habs : |valA| = (valA.natAbs : ℤ) := Int.abs_eq_natAbs valA
    exact ⟨(hpos h3).1.le, habs ▸ (hpos h3).2⟩

/-- Witness for C4's amended theorem at concrete inputs. -/
theorem sign_flip_behavior_witness :
    Crypto.invMul 2 (-7) = Crypto.invMul 2 7 ∧
    Crypto.invMul (-2) 5 = -(Crypto.invMul 2 5) ∧
    0 ≤ Crypto.invMul 3 7 ∧ Crypto.invMul 3 7 < |(7 : ℤ)| := by
  refine ⟨(sign_flip_behavior 2 7).1, (sign_flip_behavior (-2) 5).2.1 (by decide), ?_, ?_⟩
  · exact ((sign_flip_behavior 3 7).2.2 (by decide) (by decide) (by decide)).1
  · exact ((sign_flip_behavior 3 7).2.2 (by decide) (by decide) (by decide)).2

/-- C5 counterexample: at `a = 1`, `b = 2` we have `gcd(1, 2) = 1` — the final
Euclidean remainder *is* `1` — yet `invMul(2, 1) = 0`: the sentinel `0` is also
returned on a success path (the inverse of anything modulo `1` is `0`), so
"returns 0 exactly when the final remainder is not 1" fails. -/
theorem inverse_failure_cex :
    Crypto.gcd 1 2 = 1 ∧ Crypto.invMul 2 1 = 0 :=
  ⟨by decide, by decide⟩

/-- If `gcd(|a|, |b|) ≠ 1`, the final Euclidean remainder differs from `1` and
`invMul` returns the sentinel `0`. -/
theorem invMul_sentinel (a b : ℤ) (hg : Nat.gcd a.natAbs b.natAbs ≠ 1) :
    Crypto.invMul b a = 0 := by
  obtain ⟨g, Y, hE⟩ :
      ∃ g Y, Crypto.invMulGo b.natAbs a.natAbs b.natAbs 0 1 = (g, Y) :=
    ⟨_, _, rfl⟩
  have hgval : g = Nat.gcd b.natAbs a.natAbs := by
    have h2 := invMulGo_gcd b.natAbs a.natAbs b.natAbs 0 1 le_rfl
    rw [hE] at h2
    exact h2
  have hgne : g ≠ 1 := by
    rw [hgval, Nat.gcd_comm]
    exact hg
  simp only [Crypto.invMul, Crypto.abs_toNat, hE]
  rw [if_pos]
  exact hgne

/-- C5 (amended): `invMul(b, a) = 0` whenever `gcd(a, b) ≠ 1` (the final
remainder of the Euclidean chain is `gcd(|a|, |b|)`), and conversely, when
`gcd(a, b) = 1` *and* `1 < |a|`, the result is nonzero. -/
theorem inverse_failure (a b : ℤ) :
    (Crypto.gcd a b ≠ 1 → Crypto.invMul b a = 0) ∧
    (Crypto.gcd a b = 1 → 1 < |a| → Crypto.invMul b a ≠ 0) := by
  constructor
  · intro h
    apply invMul_sentinel
    rw [gcd_eq] at h
    intro hc
    exact h (by exact_mod_cast hc)
  · intro h hA
    have hA' : 1 < a.natAbs := by
      have := Int.abs_eq_natAbs a; omega
    have hg' : Nat.gcd a.natAbs b.natAbs = 1 := by
      rw [gcd_eq] at h; exact_mod_cast h
    obtain ⟨_, hpos, hneg⟩ := invMul_spec b a hA' hg'
    rcases lt_or_le b 0 with hb | hb
    · exact ne_of_lt (hneg hb).2
    · exact ne_of_gt (hpos hb).1

/-- Witness for C5's amended theorem: the claim's own example `a = 4`, `b = 2`
returns the sentinel, and at coprime `a = 7`, `b = 3` the result is nonzero. -/
theorem inverse_failure_witness :
    Crypto.invMul 2 4 = 0 ∧ Crypto.invMul 3 7 ≠ 0 :=
  ⟨(inverse_failure 4 2).1 (by decide), (inverse_failure 7 3).2 (by decide) (by decide)⟩

/-- C6 counterexample: `modPow(5, 0, 0)` returns the normal result `1` — the
zero-exponent early return happens before any modular operation, so a zero
modulus does *not* fault for every exponent. -/
theorem modPow_zero_modulus_cex : Crypto.modPowChecked 5 0 0 = some 1 := by decide

/-- C6 (amended): with a zero modulus, `modPow` faults (divides by zero) for
every *nonzero* exponent — the base reduction `a % module` is reached and
faults — while a zero exponent returns `1` before any modular operation;
`modMul` with zero modulus always faults. -/
theorem modPow_zero_modulus (a n : ℤ) :
    (n ≠ 0 → Crypto.modPowChecked a n 0 = none) ∧
    Crypto.modPowChecked a 0 0 = some 1 ∧
    (∀ b : ℤ, Crypto.modMulChecked a b 0 = none) := by
  refine ⟨fun hn => ?_, by simp [Crypto.modPowChecked], fun b => by
    simp [Crypto.modMulChecked, Crypto.tmodChecked]⟩
  simp [Crypto.modPowChecked, Crypto.tmodChecked, hn]

/-- Witness for C6's amended theorem at `a = 5`, `n = 3`, `b = 7`. -/
theorem modPow_zero_modulus_witness :
    Crypto.modPowChecked 5 3 0 = none ∧ Crypto.modMulChecked 5 7 0 = none :=
  ⟨(modPow_zero_modulus 5 3).1 (by decide), (modPow_zero_modulus 5 3).2.2 7⟩

/-- C7 counterexample: with base `-2` and modulus `5 > 0`, the reduced base
`(-2) % 5` under C++ truncated remainder is `-2`, which does not lie in
`[0, 5)`. -/
theorem reduce_base_cex :
    (0 : ℤ) < 5 ∧ Crypto.reducedBase (-2) 5 = -2 ∧
    ¬ (0 ≤ Crypto.reducedBase (-2) 5) :=
  ⟨by decide, by decide, by decide⟩

/-- C7 (amended): for modulus `> 0` the reduced base lies in the symmetric
range `(-modulus, modulus)`, and lies in `[0, modulus)` exactly when the base
is nonnegative. -/
theorem reduce_base_range (base modulus : ℤ) (hm : 0 < modulus) :
    -modulus < Crypto.reducedBase base modulus ∧
    Crypto.reducedBase base modulus < modulus ∧
    (0 ≤ base → 0 ≤ Crypto.reducedBase base modulus) := by
  have h1 := natAbs_tmod_lt base modulus (by omega)
  exact ⟨by simp only [Crypto.reducedBase]; omega,
    by simp only [Crypto.reducedBase]; omega,
    fun h => Int.tmod_nonneg _ h⟩

/-- Witness for C7's amended theorem at base `-2`, modulus `5`. -/
theorem reduce_base_range_witness :
    -(5 : ℤ) < Crypto.reducedBase (-2) 5 ∧ Crypto.reducedBase (-2) 5 < 5 := by
  obtain ⟨h1, h2, _⟩ := reduce_base_range (-2) 5 (by decide)
  exact ⟨h1, h2⟩

/-- C8: for every base coprime with the modulus (and nonzero modulus, the
spec's standing precondition for all modular operations) and every `n ≥ 0`,
`modPow(base, -n, modulus) = modInverse(modPow(base, n, modulus), modulus)`:
inverting the reduced base and then raising to `n` agrees with raising first
and then inverting. -/
theorem modPow_neg_exp (base m : ℤ) (n : ℕ) (hm : m ≠ 0)
    (hc : Crypto.isCoprime base m = true) :
    Crypto.modPow base (-(n : ℤ)) m
      = Crypto.invMul (Crypto.modPow base ((n : ℕ) : ℤ) m) m := by
  have hg : Nat.gcd base.natAbs m.natAbs = 1 := by
    have h1 : Crypto.gcd base m = 1 := by
      simpa [Crypto.isCoprime] using hc
    rw [gcd_eq] at h1
    exact_mod_cast h1
  rcases Nat.eq_zero_or_pos n with hn0 | hn1
  · subst hn0
    rw [show -(((0 : ℕ) : ℤ)) = 0 by simp, Nat.cast_zero, modPow_zero, invMul_one]
  have hnint : (0 : ℤ) < ((n : ℕ) : ℤ) := by exact_mod_cast hn1
  have hnneg : -((n : ℕ) : ℤ) < 0 := by omega
  have h01 : 1 ≤ m.natAbs := Int.natAbs_pos.mpr hm
  rcases eq_or_lt_of_le h01 with hA1 | hA2
  · -- degenerate modulus `|m| = 1`: both sides are `0`
    have hm1 : m = 1 ∨ m = -1 := by
      have := Int.natAbs_eq_iff.mp hA1.symm
      simpa using this
    rcases hm1 with rfl | rfl
    · rw [modPow_eq_neg base _ 1 (by decide) hnneg, modPow_eq_pos base _ 1 (by decide) hnint]
      simp only [Int.tmod_one]
      decide
    · rw [modPow_eq_neg base _ (-1) (by decide) hnneg,
        modPow_eq_pos base _ (-1) (by decide) hnint]
      simp only [show ((-1 : ℤ)) = -(1 : ℤ) from rfl, Int.tmod_neg, Int.tmod_one]
      decide
  -- main case `|m| ≥ 2`
  have hgm : Nat.Coprime m.natAbs base.natAbs := by
    rw [Nat.Coprime, Nat.gcd_comm]
    exact hg
  have hc0abs : (base.tmod m).natAbs = base.natAbs % m.natAbs := natAbs_tmod base m
  have hgc0 : Nat.gcd m.natAbs (base.tmod m).natAbs = 1 := by
    rw [hc0abs, Nat.gcd_comm, ← Nat.gcd_rec]
    exact hgm
  have hc0ne : base.tmod m ≠ 0 := by
    intro h0
    have h1 : base.natAbs % m.natAbs = 0 := by
      rw [← hc0abs, h0, Int.natAbs_zero]
    have h2 : Nat.gcd m.natAbs base.natAbs = m.natAbs :=
      Nat.gcd_eq_left (Nat.dvd_of_mod_eq_zero h1)
    rw [hgm] at h2
    omega
  obtain ⟨hucong, hupos, huneg⟩ := invMul_spec (base.tmod m) m hA2 hgc0
  -- the two sides in closed form
  have hLHS : Crypto.modPow base (-((n : ℕ) : ℤ)) m
      = ((Crypto.invMul (base.tmod m) m) ^ n).tmod m := by
    rw [modPow_eq_neg base _ m hm hnneg]
    simp
  have hRHS1 : Crypto.modPow base ((n : ℕ) : ℤ) m = (base ^ n).tmod m := by
    rw [modPow_eq_pos base _ m hm hnint]
    simp
  -- the raised value is again coprime with the modulus
  have hpow : Nat.Coprime m.natAbs (base.natAbs ^ n) := hgm.pow_right n
  have hwabs : ((base ^ n).tmod m).natAbs = base.natAbs ^ n % m.natAbs := by
    rw [natAbs_tmod, Int.natAbs_pow]
  have hgw : Nat.gcd m.natAbs ((base ^ n).tmod m).natAbs = 1 := by
    rw [hwabs, Nat.gcd_comm, ← Nat.gcd_rec]
    exact hpow
  have hwne : (base ^ n).tmod m ≠ 0 := by
    intro h0
    have h1 : base.natAbs ^ n % m.natAbs = 0 := by
      rw [← hwabs, h0, Int.natAbs_zero]
    have h2 : Nat.gcd m.natAbs (base.natAbs ^ n) = m.natAbs :=
      Nat.gcd_eq_left (Nat.dvd_of_mod_eq_zero h1)
    rw [hpow] at h2
    omega
  obtain ⟨hwcong, hwpos, hwneg⟩ := invMul_spec ((base ^ n).tmod m) m hA2 hgw
  -- congruences modulo `|m|`
  have hc0cong : base.tmod m ≡ base [ZMOD (m.natAbs : ℤ)] :=
    (modEq_natAbs m).mp (tmod_modEq base m)
  have hwcong2 : (base ^ n).tmod m ≡ base ^ n [ZMOD (m.natAbs : ℤ)] :=
    (modEq_natAbs m).mp (tmod_modEq (base ^ n) m)
  have hub : Crypto.invMul (base.tmod m) m * base ≡ 1 [ZMOD (m.natAbs : ℤ)] :=
    ((hc0cong.mul_left (Crypto.invMul (base.tmod m) m)).symm).trans hucong
  have hLcong : ((Crypto.invMul (base.tmod m) m) ^ n).tmod m
      ≡ (Crypto.invMul (base.tmod m) m) ^ n [ZMOD (m.natAbs : ℤ)] :=
    (modEq_natAbs m).mp (tmod_modEq _ m)
  have hL1 : ((Crypto.invMul (base.tmod m) m) ^ n).tmod m * base ^ n
      ≡ 1 [ZMOD (m.natAbs : ℤ)] := by
    calc ((Crypto.invMul (base.tmod m) m) ^ n).tmod m * base ^ n
        ≡ (Crypto.invMul (base.tmod m) m) ^ n * base ^ n [ZMOD (m.natAbs : ℤ)] :=
          hLcong.mul_right _
      _ = (Crypto.invMul (base.tmod m) m * base) ^ n := by rw [mul_pow]
      _ ≡ 1 ^ n [ZMOD (m.natAbs : ℤ)] := hub.pow n
      _ = 1 := one_pow n
  have hR1 : Crypto.invMul ((base ^ n).tmod m) m * base ^ n
      ≡ 1 [ZMOD (m.natAbs : ℤ)] := by
    calc Crypto.invMul ((base ^ n).tmod m) m * base ^ n
        ≡ Crypto.invMul ((base ^ n).tmod m) m * ((base ^ n).tmod m)
            [ZMOD (m.natAbs : ℤ)] :=
          hwcong2.symm.mul_left _
      _ ≡ 1 [ZMOD (m.natAbs : ℤ)] := hwcong
  -- cancel the coprime factor `base ^ n`
  have hgpow : Int.gcd ((m.natAbs : ℤ)) (base ^ n) = 1 := by
    have h1 : Int.gcd ((m.natAbs : ℤ)) (base ^ n)
        = Nat.gcd m.natAbs (base.natAbs ^ n) := by
      simp [Int.gcd, Int.natAbs_pow, Int.natAbs_abs]
    rw [h1]
    exact hpow
  have hcancel : ((Crypto.invMul (base.tmod m) m) ^ n).tmod m
      ≡ Crypto.invMul ((base ^ n).tmod m) m [ZMOD (m.natAbs : ℤ)] := by
    have h12 := hL1.trans hR1.symm
    have h13 := Int.ModEq.cancel_right_div_gcd
      (show (0 : ℤ) < (m.natAbs : ℤ) by exact_mod_cast h01) h12
    rw [hgpow] at h13
    simpa using h13
  -- interval bounds and conclusion
  rw [hLHS, hRHS1]
  have hAbnd := natAbs_tmod_lt ((Crypto.invMul (base.tmod m) m) ^ n) m hm
  rcases lt_or_le (base.tmod m) 0 with hc0neg | hc0pos
  · -- reduced base is negative, so the base is negative
    obtain ⟨hu1, hu2⟩ := huneg hc0neg
    have hbase : base < 0 := by
      by_contra hb
      push_neg at hb
      have := Int.tmod_nonneg m hb
      omega
    rcases Nat.even_or_odd n with hpar | hpar
    · -- even exponent: both sides lie in `[0, |m|)`
      have hun : 0 < (Crypto.invMul (base.tmod m) m) ^ n := hpar.pow_pos (by omega)
      have hbn : 0 < base ^ n := hpar.pow_pos (by omega)
      have hL0 : 0 ≤ ((Crypto.invMul (base.tmod m) m) ^ n).tmod m :=
        Int.tmod_nonneg m hun.le
      have hw0 : 0 < (base ^ n).tmod m := by
        have := Int.tmod_nonneg m hbn.le
        omega
      obtain ⟨hR1', hR2'⟩ := hwpos hw0.le
      apply modEq_eq_of_abs_sub_lt hcancel
      rw [abs_sub_lt_iff]
      constructor <;> omega
    · -- odd exponent: both sides lie in `(-|m|, 0)`
      have hun : (Crypto.invMul (base.tmod m) m) ^ n < 0 := hpar.pow_neg hu2
      have hbn : base ^ n < 0 := hpar.pow_neg hbase
      have hL0 : ((Crypto.invMul (base.tmod m) m) ^ n).tmod m ≤ 0 :=
        tmod_nonpos _ m hun.le
      have hLne : ((Crypto.invMul (base.tmod m) m) ^ n).tmod m ≠ 0 := by
        intro h0
        rw [h0, zero_mul] at hL1
        have h2 := hL1.dvd
        simp only [sub_zero] at h2
        have := Int.le_of_dvd one_pos h2
        omega
      have hw0 : (base ^ n).tmod m < 0 := by
        have h1 := tmod_nonpos (base ^ n) m hbn.le
        omega
      obtain ⟨hR1', hR2'⟩ := hwneg hw0
      apply modEq_eq_of_abs_sub_lt hcancel
      rw [abs_sub_lt_iff]
      constructor <;> omega
  · -- reduced base is positive, so the base is positive
    have hc0' : 0 < base.tmod m := lt_of_le_of_ne hc0pos (Ne.symm hc0ne)
    obtain ⟨hu1, hu2⟩ := hupos hc0pos
    have hbase : 0 < base := by
      by_contra hb
      push_neg at hb
      have := tmod_nonpos base m hb
      omega
    have hun : 0 < (Crypto.invMul (base.tmod m) m) ^ n := pow_pos hu1 n
    have hbn : 0 < base ^ n := pow_pos hbase n
    have hL0 : 0 ≤ ((Crypto.invMul (base.tmod m) m) ^ n).tmod m :=
      Int.tmod_nonneg m hun.le
    have hw0 : 0 < (base ^ n).tmod m := by
      have := Int.tmod_nonneg m hbn.le
      omega
    obtain ⟨hR1', hR2'⟩ := hwpos hw0.le
    apply modEq_eq_of_abs_sub_lt hcancel
    rw [abs_sub_lt_iff]
    constructor <;> omega

/-- Witness for C8 at `base = 2`, `m = 7`, `n = 3`. -/
theorem modPow_neg_exp_witness :
    Crypto.modPow 2 (-((3 : ℕ) : ℤ)) 7
      = Crypto.invMul (Crypto.modPow 2 ((3 : ℕ) : ℤ) 7) 7 :=
  modPow_neg_exp 2 7 3 (by decide) (by decide)

/-- C3 counterexample: with the distinct primes `P = 3`, `Q = 5`
(`N = 15`, `Phi = 8`), the exponent `e = -3` is coprime with `Phi`, and for the
message `M = 3` the round trip with `d = invMul(-3, 8) = -3` yields `0 ≠ 3`:
the claim fails for negative `e` (the inverse of `M` modulo `N` need not exist
even when `gcd(e, Phi) = 1`). -/
theorem rsa_round_trip_cex :
    Nat.Prime 3 ∧ Nat.Prime 5 ∧
    Crypto.isCoprime (-3) ((3 - 1) * (5 - 1) : ℤ) = true ∧
    Crypto.invMul (-3) 8 = -3 ∧
    Crypto.modPow (Crypto.modPow 3 (-3) 15) (Crypto.invMul (-3) 8) 15 = 0 ∧
    ¬ Crypto.modPow (Crypto.modPow 3 (-3) 15) (Crypto.invMul (-3) 8) 15 = 3 :=
  ⟨by norm_num, by norm_num, by decide, by decide, by decide, by decide⟩

/-- C3 (amended with a positive public exponent `e ≥ 1`): for distinct primes
`P ≠ Q`, `N = P·Q`, `Phi = (P-1)(Q-1)`, any `e ≥ 1` coprime with `Phi`,
`d = invMul(e, Phi)`, and any message `0 ≤ M < N`:
`modPow(modPow(M, e, N), d, N) = M`.  (The unbounded-integer model captures
the claim's "within the range where native-width products do not overflow".) -/
theorem rsa_round_trip (P Q : ℕ) (hP : Nat.Prime P) (hQ : Nat.Prime Q) (hne : P ≠ Q)
    (N Phi e d M : ℤ)
    (hN : N = (P : ℤ) * (Q : ℤ))
    (hPhi : Phi = ((P : ℤ) - 1) * ((Q : ℤ) - 1))
    (he : 1 ≤ e)
    (hcop : Crypto.isCoprime e Phi = true)
    (hd : d = Crypto.invMul e Phi)
    (hM0 : 0 ≤ M) (hMN : M < N) :
    Crypto.modPow (Crypto.modPow M e N) d N = M := by
  have hP2 : 2 ≤ P := hP.two_le
  have hQ2 : 2 ≤ Q := hQ.two_le
  have hPhiNat : Phi = (((P - 1) * (Q - 1) : ℕ) : ℤ) := by
    have h1 : ((P - 1 : ℕ) : ℤ) = (P : ℤ) - 1 := by omega
    have h2 : ((Q - 1 : ℕ) : ℤ) = (Q : ℤ) - 1 := by omega
    rw [hPhi, Nat.cast_mul, h1, h2]
  have hPhi2 : 2 ≤ (P - 1) * (Q - 1) := by
    have hPm : 1 ≤ P - 1 := by omega
    have hQm : 1 ≤ Q - 1 := by omega
    rcases Nat.lt_or_ge P 3 with h3 | h3
    · have hQ3 : 3 ≤ Q := by omega
      have h4 : 2 ≤ Q - 1 := by omega
      calc 2 = 1 * 2 := rfl
        _ ≤ (P - 1) * (Q - 1) := Nat.mul_le_mul hPm h4
    · have h4 : 2 ≤ P - 1 := by omega
      calc 2 = 2 * 1 := rfl
        _ ≤ (P - 1) * (Q - 1) := Nat.mul_le_mul h4 hQm
  have hPhiZ2 : (2 : ℤ) ≤ Phi := by
    rw [hPhiNat]; exact_mod_cast hPhi2
  have hgcd : Nat.gcd Phi.natAbs e.natAbs = 1 := by
    have h1 : Crypto.gcd e Phi = 1 := by simpa [Crypto.isCoprime] using hcop
    rw [gcd_eq] at h1
    have h2 : Nat.gcd e.natAbs Phi.natAbs = 1 := by exact_mod_cast h1
    rwa [Nat.gcd_comm] at h2
  have hPhiA : 1 < Phi.natAbs := by omega
  obtain ⟨hdcong, hdpos, _⟩ := invMul_spec e Phi hPhiA hgcd
  have hd1 := hdpos (by omega)
  have hdpos' : 0 < d := hd ▸ hd1.1
  have hNint : (2 : ℤ) ≤ N := by
    have h1 : (2 : ℤ) ≤ (P : ℤ) := by exact_mod_cast hP2
    have h2 : (2 : ℤ) ≤ (Q : ℤ) := by exact_mod_cast hQ2
    rw [hN]; nlinarith
  have hNne : N ≠ 0 := by omega
  have he0 : (0 : ℤ) < e := by omega
  -- the ciphertext in closed form, with its range
  have hC : Crypto.modPow M e N = (M ^ e.natAbs).tmod N := modPow_eq_pos M e N hNne he0
  have hCM : 0 ≤ (M ^ e.natAbs).tmod N := Int.tmod_nonneg N (pow_nonneg hM0 _)
  -- the decryption in closed form
  have hM' : Crypto.modPow ((M ^ e.natAbs).tmod N) d N
      = (((M ^ e.natAbs).tmod N) ^ d.natAbs).tmod N :=
    modPow_eq_pos _ d N hNne hdpos'
  have hCcong : (M ^ e.natAbs).tmod N ≡ M ^ e.natAbs [ZMOD N] := tmod_modEq _ N
  have hM'cong : (((M ^ e.natAbs).tmod N) ^ d.natAbs).tmod N
      ≡ M ^ (e.natAbs * d.natAbs) [ZMOD N] := by
    calc (((M ^ e.natAbs).tmod N) ^ d.natAbs).tmod N
        ≡ ((M ^ e.natAbs).tmod N) ^ d.natAbs [ZMOD N] := tmod_modEq _ N
      _ ≡ (M ^ e.natAbs) ^ d.natAbs [ZMOD N] := hCcong.pow _
      _ = M ^ (e.natAbs * d.natAbs) := by rw [← pow_mul]
  -- `e*d ≡ 1 (mod Phi)`, hence `e.natAbs * d.natAbs = 1 + (P-1)(Q-1)k`
  have hed : e * d ≡ 1 [ZMOD (Phi.natAbs : ℤ)] := by
    calc e * d = Crypto.invMul e Phi * e := by rw [hd]; ring
      _ ≡ 1 [ZMOD (Phi.natAbs : ℤ)] := hdcong
  have h1 : ((Phi.natAbs : ℤ)) ∣ e * d - 1 := by
    have h2 := hed.dvd
    have h3 : (Phi.natAbs : ℤ) ∣ -(1 - e * d) := dvd_neg.mpr h2
    simpa using h3
  have hedpos : 1 ≤ e * d := by
    have h3 : 0 < e * d := mul_pos he0 hdpos'
    omega
  have h4 : e * d = ((e.natAbs * d.natAbs : ℕ) : ℤ) := by
    rw [Nat.cast_mul, Int.natAbs_of_nonneg (by omega : (0 : ℤ) ≤ e),
      Int.natAbs_of_nonneg (by omega : (0 : ℤ) ≤ d)]
  rw [h4] at h1 hedpos
  have h8 : 1 ≤ e.natAbs * d.natAbs := by exact_mod_cast hedpos
  have h5 : Phi.natAbs ∣ e.natAbs * d.natAbs - 1 := by
    rw [← Int.natCast_dvd_natCast]
    have h6 : ((e.natAbs * d.natAbs - 1 : ℕ) : ℤ) = ((e.natAbs * d.natAbs : ℕ) : ℤ) - 1 := by
      omega
    rw [h6]
    exact h1
  obtain ⟨k, hk⟩ := h5
  have h7 : Phi.natAbs = (P - 1) * (Q - 1) := by
    rw [hPhiNat]
    exact Int.natAbs_ofNat _
  rw [h7] at hk
  have hkk : e.natAbs * d.natAbs = 1 + (P - 1) * (Q - 1) * k := by omega
  -- number theory: `M ^ (1 + (P-1)(Q-1)k) ≡ M (mod N)`
  have hNT : M ^ (e.natAbs * d.natAbs) ≡ M [ZMOD N] := by
    rw [hkk, hN]
    exact rsa_core P Q hP hQ hne k M
  -- both sides of the final congruence lie in `[0, N)`
  rw [hC, hM']
  have hfinal := hM'cong.trans hNT
  have hM'0 : 0 ≤ (((M ^ e.natAbs).tmod N) ^ d.natAbs).tmod N :=
    Int.tmod_nonneg N (pow_nonneg hCM _)
  have hM'lt := natAbs_tmod_lt (((M ^ e.natAbs).tmod N) ^ d.natAbs) N hNne
  apply modEq_eq_of_abs_sub_lt hfinal
  rw [abs_sub_lt_iff]
  constructor <;> omega

/-- Witness for C3's amended theorem: `P = 3`, `Q = 5`, `e = 3`, `M = 2`. -/
theorem rsa_round_trip_witness :
    Crypto.modPow (Crypto.modPow 2 3 15) (Crypto.invMul 3 8) 15 = 2 :=
  rsa_round_trip 3 5 (by norm_num) (by norm_num) (by decide) 15 8 3
    (Crypto.invMul 3 8) 2 (by norm_num) (by norm_num) (by decide) (by decide)
    rfl (by decide) (by decide)

/-! ### The 32-bit `int` width of `invMul`'s internals -/

theorem wrap32_eq_self {x : ℤ} (h1 : -2147483648 ≤ x) (h2 : x ≤ 2147483647) :
    Crypto.wrap32 x = x := by
  simp only [Crypto.wrap32, show (2 : ℤ) ^ 31 = 2147483648 from by norm_num,
    show (2 : ℤ) ^ 32 = 4294967296 from by norm_num]
  omega

/-- When every loop value stays within the `int` range (which the Bézout
invariants guarantee as long as the initial `a₀ = |valA|` is in range), the
wrapping loop coincides with the unbounded one. -/
theorem invMulWrapGo_eq (a₀ : ℕ) (ha₀ : (a₀ : ℤ) ≤ 2147483647) :
    ∀ (fuel a b : ℕ) (y y1 : ℤ),
    (a : ℤ) ≤ 2147483647 → (b : ℤ) ≤ 2147483647 →
    (a : ℤ) * (y1.natAbs : ℤ) + (b : ℤ) * (y.natAbs : ℤ) = (a₀ : ℤ) →
    (0 ≤ y ∧ y1 ≤ 0 ∨ y ≤ 0 ∧ 0 ≤ y1) →
    Crypto.invMulWrapGo fuel (a : ℤ) (b : ℤ) y y1
      = (((Crypto.invMulGo fuel a b y y1).1 : ℤ), (Crypto.invMulGo fuel a b y y1).2) := by
  intro fuel
  induction fuel with
  | zero => intro a b y y1 _ _ _ _; rfl
  | succ fuel ih =>
    intro a b y y1 hba hbb hI3 hI4
    rcases eq_or_ne b 0 with h0 | h0
    · subst h0
      rw [show Crypto.invMulWrapGo (fuel + 1) (a : ℤ) (((0 : ℕ) : ℤ)) y y1
          = ((a : ℤ), y) from by simp [Crypto.invMulWrapGo],
        show Crypto.invMulGo (fuel + 1) a 0 y y1 = (a, y) from by
          simp [Crypto.invMulGo]]
    · have hb1 : 1 ≤ b := Nat.pos_of_ne_zero h0
      obtain ⟨habs, hI3', hI4'⟩ := bezout_step a₀ a b y y1 hb1 hI3 hI4
      have hq : Int.tdiv (a : ℤ) (b : ℤ) = ((a / b : ℕ) : ℤ) := (Int.ofNat_tdiv a b).symm
      have hmod : Int.tmod (a : ℤ) (b : ℤ) = ((a % b : ℕ) : ℤ) := (Int.ofNat_tmod a b).symm
      have hq0 : (0 : ℤ) ≤ ((a / b : ℕ) : ℤ) := Int.natCast_nonneg _
      have hqle : ((a / b : ℕ) : ℤ) ≤ 2147483647 := by
        have h1 : ((a / b : ℕ) : ℤ) ≤ (a : ℤ) := by
          exact_mod_cast Nat.div_le_self a b
        omega
      have hwq : Crypto.wrap32 ((a / b : ℕ) : ℤ) = ((a / b : ℕ) : ℤ) :=
        wrap32_eq_self (by omega) hqle
      -- `|y1 * (a/b)| ≤ a * |y1| ≤ a₀` keeps the product in range
      have hprodbound : (((y1 * ((a / b : ℕ) : ℤ)).natAbs : ℤ)) ≤ (a₀ : ℤ) := by
        have h1 : ((a / b : ℕ) : ℤ) ≤ (a : ℤ) := by
          exact_mod_cast Nat.div_le_self a b
        have h2 : (0 : ℤ) ≤ (y1.natAbs : ℤ) := Int.natCast_nonneg _
        have h3 : (y1.natAbs : ℤ) * ((a / b : ℕ) : ℤ) ≤ (a : ℤ) * (y1.natAbs : ℤ) := by
          rw [mul_comm ((a : ℤ))]
          exact mul_le_mul_of_nonneg_left h1 h2
        have h4 : (0 : ℤ) ≤ (b : ℤ) * (y.natAbs : ℤ) :=
          mul_nonneg (Int.natCast_nonneg _) (Int.natCast_nonneg _)
        have h5 : ((y1 * ((a / b : ℕ) : ℤ)).natAbs : ℤ)
            = (y1.natAbs : ℤ) * ((a / b : ℕ) : ℤ) := by
          rw [Int.natAbs_mul, Int.natAbs_ofNat]
          push_cast
          ring
        rw [h5]
        linarith
      have hwprod : Crypto.wrap32 (y1 * ((a / b : ℕ) : ℤ)) = y1 * ((a / b : ℕ) : ℤ) := by
        apply wrap32_eq_self <;> omega
      -- `|y - y1 * (a/b)| ≤ a₀` by the next-state identity
      have htbound : (((y - y1 * ((a / b : ℕ) : ℤ)).natAbs : ℤ)) ≤ (a₀ : ℤ) := by
        have h5 : (0 : ℤ) ≤ ((a % b : ℕ) : ℤ) * (y1.natAbs : ℤ) :=
          mul_nonneg (Int.natCast_nonneg _) (Int.natCast_nonneg _)
        have h6 : (1 : ℤ) ≤ (b : ℤ) := by exact_mod_cast hb1
        nlinarith [hI3', Int.natCast_nonneg ((y - y1 * ((a / b : ℕ) : ℤ)).natAbs)]
      have hwt : Crypto.wrap32 (y - y1 * ((a / b : ℕ) : ℤ)) = y - y1 * ((a / b : ℕ) : ℤ) := by
        apply wrap32_eq_self <;> omega
      have hbne : ((b : ℕ) : ℤ) ≠ 0 := by exact_mod_cast h0
      rw [show Crypto.invMulWrapGo (fuel + 1) (a : ℤ) (b : ℤ) y y1
          = Crypto.invMulWrapGo fuel (b : ℤ) (Int.tmod (a : ℤ) (b : ℤ)) y1
              (Crypto.wrap32 (y - Crypto.wrap32 (y1 * Crypto.wrap32 (Int.tdiv (a : ℤ) (b : ℤ)))))
          from by rw [Crypto.invMulWrapGo, if_neg hbne],
        show Crypto.invMulGo (fuel + 1) a b y y1
          = Crypto.invMulGo fuel b (a % b) y1 (y - y1 * ((a / b : ℕ) : ℤ)) from by
          rw [Crypto.invMulGo, if_neg h0]]
      rw [hq, hwq, hwprod, hwt, hmod]
      have hmodle : ((a % b : ℕ) : ℤ) ≤ 2147483647 := by
        have h1 : a % b < b := Nat.mod_lt a hb1
        have h2 : ((a % b : ℕ) : ℤ) < (b : ℤ) := by exact_mod_cast h1
        omega
      exact ih b (a % b) y1 (y - y1 * ((a / b : ℕ) : ℤ)) hbb hmodle hI3' hI4'

/-- With both arguments' absolute values representable in a 32-bit `int`, the
wrapping model of `invMul` agrees with the unbounded one. -/
theorem invMulWrap_eq_invMul (valB valA : ℤ)
    (hA : (valA.natAbs : ℤ) ≤ 2147483647) (hB : (valB.natAbs : ℤ) ≤ 2147483647) :
    Crypto.invMulWrap valB valA = Crypto.invMul valB valA := by
  by_cases hsp : valA = 0 ∧ valB.natAbs = 1
  · obtain ⟨rfl, hB1⟩ := hsp
    have h1 : valB = 1 ∨ valB = -1 := by
      have := Int.natAbs_eq_iff.mp hB1
      simpa using this
    rcases h1 with rfl | rfl <;> decide
  obtain ⟨g, Y, hE⟩ :
      ∃ g Y, Crypto.invMulGo valB.natAbs valA.natAbs valB.natAbs 0 1 = (g, Y) :=
    ⟨_, _, rfl⟩
  have hwa : Crypto.wrap32 (Crypto.abs valA) = ((valA.natAbs : ℕ) : ℤ) := by
    rw [Crypto.abs_eq]
    exact wrap32_eq_self (by omega) hA
  have hwb : Crypto.wrap32 (Crypto.abs valB) = ((valB.natAbs : ℕ) : ℤ) := by
    rw [Crypto.abs_eq]
    exact wrap32_eq_self (by omega) hB
  have hcorr := invMulWrapGo_eq valA.natAbs hA valB.natAbs valA.natAbs valB.natAbs 0 1
    hA hB (by simp) (Or.inr ⟨le_rfl, zero_le_one⟩)
  rw [hE] at hcorr
  simp only [Crypto.invMulWrap, hwa, hwb, Int.natAbs_ofNat]
  rw [hcorr]
  simp only [Crypto.invMul, Crypto.abs_toNat, hE]
  by_cases hg1 : g = 1
  · subst hg1
    have hAne : valA.natAbs ≠ 0 := by
      intro hA0
      -- then the final remainder is `gcd(|b|, 0) = |b| = 1`, the special case
      have h := invMulGo_gcd valB.natAbs valA.natAbs valB.natAbs 0 1 le_rfl
      rw [hE] at h
      have h2 : (1 : ℕ) = Nat.gcd valB.natAbs valA.natAbs := h
      rw [hA0, Nat.gcd_zero_right] at h2
      exact hsp ⟨by omega, h2.symm⟩
    -- `|Y| ≤ |valA|` lets every wrap in the normalisation reduce to identity
    have hspec := invMulGo_spec valA.natAbs valB.natAbs valB.natAbs
        valA.natAbs valB.natAbs 0 1 le_rfl (by omega)
        (by rw [zero_mul]
            exact ((dvd_refl ((valA.natAbs : ℤ))).modEq_zero_int).symm)
        (by rw [one_mul])
        (by simp)
        (Or.inr ⟨le_rfl, zero_le_one⟩)
        (by simp)
    rw [hE] at hspec
    have hbound : ((Y.natAbs : ℤ)) ≤ (valA.natAbs : ℤ) := hspec.2
    have habsA : Crypto.abs valA = ((valA.natAbs : ℕ) : ℤ) := Crypto.abs_eq valA
    norm_num
    rw [habsA]
    rcases lt_or_le Y 0 with hY | hY
    · rw [if_pos hY, if_pos hY,
        @wrap32_eq_self (Y + ((valA.natAbs : ℕ) : ℤ)) (by omega) (by omega)]
      rcases lt_or_le valB 0 with hb | hb
      · rw [if_pos hb, if_pos hb,
          @wrap32_eq_self (-(Y + ((valA.natAbs : ℕ) : ℤ))) (by omega) (by omega)]
      · rw [if_neg (not_lt.mpr hb), if_neg (not_lt.mpr hb)]
    · rw [if_neg (not_lt.mpr hY), if_neg (not_lt.mpr hY)]
      rcases lt_or_le valB 0 with hb | hb
      · rw [if_pos hb, if_pos hb, @wrap32_eq_self (-Y) (by omega) (by omega)]
      · rw [if_neg (not_lt.mpr hb), if_neg (not_lt.mpr hb)]
  · have hg1' : ((g : ℕ) : ℤ) ≠ 1 := by exact_mod_cast hg1
    rw [if_pos hg1', if_pos hg1]

/-- C10: `invMul`'s internal Bézout bookkeeping runs at the fixed `int` width.
For arguments whose absolute values are representable in a 32-bit `int`, the
`int`-width computation (modelled by `invMulWrap`, with two's-complement
narrowing at every `int` assignment) agrees with the ideal caller-width
computation; for out-of-range arguments the narrowing is observable:
at `valB = 2^32 + 2`, `valA = 2^32 + 5` the `int`-width computation returns
`3` (it effectively inverts `2` modulo `5`), while the caller-width
computation returns `0` (the true gcd is `3`, so no inverse exists). -/
theorem invMul_int_width :
    (∀ valB valA : ℤ, valA.natAbs ≤ 2 ^ 31 - 1 → valB.natAbs ≤ 2 ^ 31 - 1 →
      Crypto.invMulWrap valB valA = Crypto.invMul valB valA) ∧
    Crypto.invMulWrap 4294967298 4294967301 = 3 ∧
    Crypto.invMul 4294967298 4294967301 = 0 := by
  refine ⟨fun valB valA h1 h2 => invMulWrap_eq_invMul valB valA ?_ ?_, by decide, ?_⟩
  · have h3 : valA.natAbs ≤ 2147483647 := by
      calc valA.natAbs ≤ 2 ^ 31 - 1 := h1
        _ = 2147483647 := by norm_num
    exact_mod_cast h3
  · have h3 : valB.natAbs ≤ 2147483647 := by
      calc valB.natAbs ≤ 2 ^ 31 - 1 := h2
        _ = 2147483647 := by norm_num
    exact_mod_cast h3
  · apply invMul_sentinel
    norm_num

/-- Witness for C10 at the in-range input `valB = 2`, `valA = 5`. -/
theorem invMul_int_width_witness :
    Crypto.invMulWrap 2 5 = Crypto.invMul 2 5 :=
  invMul_int_width.1 2 5 (by norm_num) (by norm_num)

